import Mathlib

/-!
Shallow embedding of `velox/dwio/common/DataBuffer.h` (template class
`DataBuffer<T>`), instantiated at a trivially-copyable element type modelled
as `Int` (the claims use `int32` values).

Modelling conventions:
* A buffer state carries the pool pointer (`pool`, `none` in aliasing mode),
  the aliasing flag (`aliased`, true iff `veloxRef_ != nullptr`), the raw
  storage (`buf : Option (List Int)`, `none` = null pointer, `some l` =
  an allocation holding `l.length` elements), the logical length `size`
  (field `size_`) and the allocated `capacity` (field `capacity_`).
* The memory pool is external to the repository (only its call sites are in
  the source).  Modelled from the spec: `allocate`/`reallocate` succeed with
  a non-null pointer (allocation failure is fatal and aborts the operation,
  so only the success path produces a post-state); `reallocate` preserves
  the previously held bytes; bytes beyond them are unspecified, which the
  model captures by a fresh-content oracle `g : Nat → Int` supplied to every
  operation that may allocate.  Zero-byte `allocateZeroFilled` is modelled
  as returning null, matching the spec's data model (`data == null` iff
  `capacity == 0`) and "allocation of zero length must succeed and may
  yield a null pointer".
* Fatal checks (`VELOX_CHECK*`, `VELOX_FAIL`) make an operation return
  `none`; a normal return is `some` of the post-state paired with the list
  of pool calls the operation performed.
* Machine arithmetic (`uint64_t`) is modelled on `Nat`; none of the claims
  concerns wrap-around, and any size large enough to overflow would make
  the pool allocation fail fatally first.
-/

/-- A call made to the external memory pool, with byte counts as arguments
(mirroring `allocateZeroFilled`, `allocate`, `reallocate`, `free`). -/
inductive PoolEvent where
  | allocZero (bytes : Nat)
  | alloc (bytes : Nat)
  | realloc (oldBytes newBytes : Nat)
  | free (bytes : Nat)
deriving DecidableEq

/-- State of a `DataBuffer<T>`: pool pointer (`pool_`, identified by a
number; `none` when null), aliasing flag (`veloxRef_ != nullptr`), storage
(`buf_`; `none` is the null pointer), logical length (`size_`) and allocated
capacity (`capacity_`). -/
structure DataBuffer where
  pool : Option Nat
  aliased : Bool
  buf : Option (List Int)
  size : Nat
  capacity : Nat
deriving DecidableEq

namespace DataBuffer

/-- `sizeInBytes(items) = sizeof(T) * items`; the element type is
instantiated at a 4-byte trivially-copyable type (`int32_t`). -/
def sizeInBytes (items : Nat) : Nat := 4 * items

/-- Fresh storage delivered by the pool for `n` elements: the content is
arbitrary, supplied by the oracle `g`. -/
def freshFill (g : Nat → Int) (n : Nat) : List Int :=
  (List.range n).map g

/-- Overwrite the elements of `l` at positions `[off, off + xs.length)` with
`xs` (the effect of `memcpy`/`memset` into an allocation). -/
def setRange (l : List Int) (off : Nat) (xs : List Int) : List Int :=
  l.take off ++ xs ++ l.drop (off + xs.length)

/-- Element stored at index `i` of the buffer's raw storage (the value
`buf_[i]`); defaults to 0 for out-of-allocation reads, which well-formed
executions never perform. -/
def cell (b : DataBuffer) (i : Nat) : Int :=
  (b.buf.getD []).getD i 0

/-- Number of elements the current allocation holds. -/
def bufLen (b : DataBuffer) : Nat :=
  (b.buf.getD []).length

/-- Constructor `DataBuffer(pool, size)`: `buf_ =
pool.allocateZeroFilled(1, sizeInBytes(size))`, `size_ = capacity_ = size`.
Zero-filled allocation of `size > 0` elements yields `size` zero elements;
a zero-byte request is modelled as returning null (see the header comment:
the pool is external, this is the spec's data model). -/
def mkBuffer (pid : Nat) (size : Nat) : DataBuffer :=
  { pool := some pid
    aliased := false
    buf := if size = 0 then none else some (List.replicate size 0)
    size := size
    capacity := size }

/-- Factory `wrap(buffer)`: aliasing-mode construction.  Modelled from the
spec: the external immutable buffer is a byte region viewed as `contents`
elements; `size_ = capacity_ =` byte length / element size =
`contents.length`, `pool_` is null, and `data` is the external region's
pointer (null iff the region holds no complete element, per the spec's
data-model invariant `data == null ⇔ capacity == 0`). -/
def wrap (contents : List Int) : DataBuffer :=
  { pool := none
    aliased := true
    buf := if contents.length = 0 then none else some contents
    size := contents.length
    capacity := contents.length }

/-- `reserve(capacity)`: if `capacity <= capacity_`, assert `buf_ != nullptr`
(fatal otherwise) and return; fatal (`VELOX_FAIL`) if the buffer is
aliased; otherwise allocate (when `buf_` is null) or reallocate (preserving
the old content) and set `capacity_ = capacity`. -/
def reserve (g : Nat → Int) (cap : Nat) (b : DataBuffer) :
    Option (DataBuffer × List PoolEvent) :=
  if cap ≤ b.capacity then
    match b.buf with
    | none => none
    | some _ => some (b, [])
  else if b.aliased then none
  else
    match b.buf with
    | none =>
        some ({ b with buf := some (freshFill g cap), capacity := cap },
          [PoolEvent.alloc (sizeInBytes cap)])
    | some l =>
        let nb := { b with buf := some (l ++ freshFill g (cap - l.length)), capacity := cap }
        some (nb, [PoolEvent.realloc (sizeInBytes b.capacity) (sizeInBytes cap)])

/-- `extend(size)`: grow capacity to `newSize + (newSize + 1) / 2 + 1` when
`newSize = size_ + size` exceeds `capacity_`; otherwise do nothing. -/
def extend (g : Nat → Int) (n : Nat) (b : DataBuffer) :
    Option (DataBuffer × List PoolEvent) :=
  let newSize := b.size + n
  if b.capacity < newSize then
    reserve g (newSize + (newSize + 1) / 2 + 1) b
  else
    some (b, [])

/-- `resize(size)`: `reserve(size)`, `memset` zeros over the newly exposed
elements `[size_, size)` when growing, then `size_ = size`. -/
def resize (g : Nat → Int) (n : Nat) (b : DataBuffer) :
    Option (DataBuffer × List PoolEvent) :=
  match reserve g n b with
  | none => none
  | some (b1, ev) =>
      let fill := fun l => setRange l b1.size (List.replicate (n - b1.size) 0)
      let b2 := if b1.size < n then { b1 with buf := b1.buf.map fill } else b1
      some ({ b2 with size := n }, ev)

/-- `unsafeAppend(offset, src, items)`: `memcpy` the `items` elements at the
source pointer into `[offset, offset + items)` when `items > 0`, then set
`size_ = offset + items` (unconditionally).  The source pointer is modelled
as the list of elements it points to. -/
def rawAppendAt (off : Nat) (src : List Int) (items : Nat) (b : DataBuffer) :
    DataBuffer :=
  let b1 :=
    if 0 < items then
      { b with buf := b.buf.map (fun l => setRange l off (src.take items)) }
    else b
  { b1 with size := off + items }

/-- `append(offset, src, items)` (pointer form): `reserve(offset + items)`
then `unsafeAppend(offset, src, items)`. -/
def appendPtr (g : Nat → Int) (off : Nat) (src : List Int) (items : Nat)
    (b : DataBuffer) : Option (DataBuffer × List PoolEvent) :=
  match reserve g (off + items) b with
  | none => none
  | some (b1, ev) => some (rawAppendAt off src items b1, ev)

/-- `append(offset, src, srcOffset, items)` (buffer form):
`VELOX_CHECK_GE(src.size(), srcOffset + items)` (fatal on violation), then
the pointer form on `src.data() + srcOffset`. -/
def appendBuf (g : Nat → Int) (off : Nat) (src : DataBuffer)
    (srcOff items : Nat) (b : DataBuffer) :
    Option (DataBuffer × List PoolEvent) :=
  if src.size < srcOff + items then none
  else appendPtr g off ((src.buf.getD []).drop srcOff) items b

/-- `extendAppend(offset, src, items)`: grow capacity by the headroom
formula only when `offset + items` exceeds `capacity_`, then
`unsafeAppend(offset, src, items)`. -/
def extendAppend (g : Nat → Int) (off : Nat) (src : List Int) (items : Nat)
    (b : DataBuffer) : Option (DataBuffer × List PoolEvent) :=
  let newSize := off + items
  if b.capacity < newSize then
    match reserve g (newSize + (newSize + 1) / 2 + 1) b with
    | none => none
    | some (b1, ev) => some (rawAppendAt off src items b1, ev)
  else
    some (rawAppendAt off src items b, [])

/-- `unsafeAppend(value)`: `buf_[size_++] = value`. -/
def rawAppendVal (v : Int) (b : DataBuffer) : DataBuffer :=
  { b with buf := b.buf.map (fun l => l.set b.size v), size := b.size + 1 }

/-- `append(value)`: when `size_ >= capacity_`, reserve
`capacity_ + (capacity_ + 1) / 2 + 1`, then `unsafeAppend(value)`. -/
def appendVal (g : Nat → Int) (v : Int) (b : DataBuffer) :
    Option (DataBuffer × List PoolEvent) :=
  if b.capacity ≤ b.size then
    match reserve g (b.capacity + (b.capacity + 1) / 2 + 1) b with
    | none => none
    | some (b1, ev) => some (rawAppendVal v b1, ev)
  else
    some (rawAppendVal v b, [])

/-- The write-and-bump-length tail of `safeSet`: `buf_[offset] = value`,
then `size_ = offset + 1` when `offset >= size_`. -/
def setAt (off : Nat) (v : Int) (b : DataBuffer) : DataBuffer :=
  { b with
    buf := b.buf.map (fun l => l.set off v)
    size := if b.size ≤ off then off + 1 else b.size }

/-- `safeSet(offset, value)`: when `offset >= capacity_`, reserve
`max(offset + 1, capacity_ + (capacity_ + 1) / 2 + 1)`; then write `value`
at `offset` and advance `size_` to `offset + 1` when `offset >= size_`. -/
def safeSet (g : Nat → Int) (off : Nat) (v : Int) (b : DataBuffer) :
    Option (DataBuffer × List PoolEvent) :=
  if b.capacity ≤ off then
    match reserve g (max (off + 1) (b.capacity + (b.capacity + 1) / 2 + 1)) b with
    | none => none
    | some (b1, ev) => some (setAt off v b1, ev)
  else
    some (setAt off v b, [])

/-- `clear()`: free the allocation through the pool when owning and
non-null, then reset `size_ = capacity_ = 0`, `buf_ = nullptr`.  The
destructor is exactly a call to `clear()`. -/
def clear (b : DataBuffer) : DataBuffer × List PoolEvent :=
  let ev :=
    if b.aliased = false ∧ b.buf.isSome = true then
      [PoolEvent.free (sizeInBytes b.capacity)]
    else []
  ({ b with buf := none, size := 0, capacity := 0 }, ev)

/-- Move construction `DataBuffer(DataBuffer&&)`: the target copies every
field of the source; the source keeps its pool pointer and aliasing
reference but gets `buf_ = nullptr`, `size_ = capacity_ = 0`.  Returns
(target, source-after-move). -/
def move (b : DataBuffer) : DataBuffer × DataBuffer :=
  (b, { b with buf := none, size := 0, capacity := 0 })

/-- Checked accessor `at(i)`: fatal when `i >= size_`, otherwise the stored
element. -/
def atIdx (b : DataBuffer) (i : Nat) : Option Int :=
  if i < b.size then some (cell b i) else none

/-- The representation invariant of a buffer (spec §3): the logical length
never exceeds the capacity, the allocation holds exactly `capacity_`
elements, and the data pointer is null exactly when the capacity is 0. -/
def wf (b : DataBuffer) : Prop :=
  b.size ≤ b.capacity ∧ bufLen b = b.capacity ∧ (b.buf = none ↔ b.capacity = 0)

instance (b : DataBuffer) : Decidable (wf b) := by
  unfold wf; infer_instance

end DataBuffer

namespace DataBuffer

theorem freshFill_length (g : Nat → Int) (n : Nat) : (freshFill g n).length = n := by
  simp [freshFill]

theorem setRange_length (l xs : List Int) (off : Nat) (h : off + xs.length ≤ l.length) :
    (setRange l off xs).length = l.length := by
  have h1 : off ≤ l.length := by omega
  unfold setRange
  rw [List.length_append, List.length_append, List.length_take_of_le h1, List.length_drop]
  omega
theorem setRange_getElem?_left (l xs : List Int) (off i : Nat) (hi : i < off)
    (h : off ≤ l.length) : (setRange l off xs)[i]? = l[i]? := by
  have hlen : (l.take off).length = off := List.length_take_of_le h
  have h1 : i < (l.take off ++ xs).length := by
    rw [List.length_append, hlen]; omega
  have h2 : i < (l.take off).length := by rw [hlen]; exact hi
  unfold setRange
  rw [List.getElem?_append_left h1, List.getElem?_append_left h2]
  exact List.getElem?_take_of_lt hi

theorem setRange_getElem?_mid (l xs : List Int) (off i : Nat) (hi : i < xs.length)
    (h : off ≤ l.length) : (setRange l off xs)[off + i]? = xs[i]? := by
  have hlen : (l.take off).length = off := List.length_take_of_le h
  have h1 : off + i < (l.take off ++ xs).length := by
    rw [List.length_append, hlen]; omega
  have h2 : (l.take off).length ≤ off + i := by rw [hlen]; omega
  unfold setRange
  rw [List.getElem?_append_left h1, List.getElem?_append_right h2, hlen]
  simp only [Nat.add_sub_cancel_left]

theorem setRange_getD_left (l xs : List Int) (off i : Nat) (hi : i < off)
    (h : off ≤ l.length) : (setRange l off xs).getD i 0 = l.getD i 0 := by
  simp only [List.getD_eq_getElem?_getD, setRange_getElem?_left l xs off i hi h]

theorem setRange_getD_mid (l xs : List Int) (off i : Nat) (hi : i < xs.length)
    (h : off ≤ l.length) : (setRange l off xs).getD (off + i) 0 = xs.getD i 0 := by
  simp only [List.getD_eq_getElem?_getD, setRange_getElem?_mid l xs off i hi h]

theorem cell_of_buf (b : DataBuffer) (l : List Int) (hb : b.buf = some l) (i : Nat) :
    cell b i = l.getD i 0 := by
  simp [cell, hb]

theorem reserve_noop (g : Nat → Int) (cap : Nat) (b : DataBuffer) (l : List Int)
    (hc : cap ≤ b.capacity) (hb : b.buf = some l) :
    reserve g cap b = some (b, []) := by
  unfold reserve
  rw [if_pos hc, hb]

theorem reserve_noop_none (g : Nat → Int) (cap : Nat) (b : DataBuffer)
    (hc : cap ≤ b.capacity) (hb : b.buf = none) :
    reserve g cap b = none := by
  unfold reserve
  rw [if_pos hc, hb]

theorem reserve_aliased_grow (g : Nat → Int) (cap : Nat) (b : DataBuffer)
    (hc : b.capacity < cap) (ha : b.aliased = true) :
    reserve g cap b = none := by
  unfold reserve
  rw [if_neg (Nat.not_le.mpr hc), ha]
  rfl

theorem reserve_grow_none (g : Nat → Int) (cap : Nat) (b : DataBuffer)
    (hc : b.capacity < cap) (ha : b.aliased = false) (hb : b.buf = none) :
    reserve g cap b =
      some ({ b with buf := some (freshFill g cap), capacity := cap },
        [PoolEvent.alloc (sizeInBytes cap)]) := by
  unfold reserve
  rw [if_neg (Nat.not_le.mpr hc), ha, hb]
  rfl

theorem reserve_grow_some (g : Nat → Int) (cap : Nat) (b : DataBuffer) (l : List Int)
    (hc : b.capacity < cap) (ha : b.aliased = false) (hb : b.buf = some l) :
    reserve g cap b =
      some ({ b with buf := some (l ++ freshFill g (cap - l.length)), capacity := cap },
        [PoolEvent.realloc (sizeInBytes b.capacity) (sizeInBytes cap)]) := by
  unfold reserve
  rw [if_neg (Nat.not_le.mpr hc), ha, hb]
  rfl

theorem reserve_eq_none_iff (g : Nat → Int) (cap : Nat) (b : DataBuffer) :
    reserve g cap b = none ↔
      (cap ≤ b.capacity ∧ b.buf = none) ∨ (b.capacity < cap ∧ b.aliased = true) := by
  constructor
  · intro h
    rcases le_or_lt cap b.capacity with hc | hc
    · cases hb : b.buf with
      | none => exact Or.inl ⟨hc, rfl⟩
      | some l => rw [reserve_noop g cap b l hc hb] at h; cases h
    · cases ha : b.aliased with
      | false =>
          cases hb : b.buf with
          | none => rw [reserve_grow_none g cap b hc ha hb] at h; cases h
          | some l => rw [reserve_grow_some g cap b l hc ha hb] at h; cases h
      | true => exact Or.inr ⟨hc, rfl⟩
  · rintro (⟨h1, h2⟩ | ⟨h1, h2⟩)
    · exact reserve_noop_none g cap b h1 h2
    · exact reserve_aliased_grow g cap b h1 h2

theorem reserve_some_spec (g : Nat → Int) (cap : Nat) (b b1 : DataBuffer)
    (ev : List PoolEvent) (h : reserve g cap b = some (b1, ev)) :
    b1.size = b.size ∧ b1.aliased = b.aliased ∧ b1.pool = b.pool ∧
      b.capacity ≤ b1.capacity ∧ cap ≤ b1.capacity ∧
      (cap ≤ b.capacity → b1 = b) ∧ (b.capacity < cap → b1.capacity = cap) := by
  rcases le_or_lt cap b.capacity with hc | hc
  · cases hb : b.buf with
    | none => rw [reserve_noop_none g cap b hc hb] at h; cases h
    | some l =>
        rw [reserve_noop g cap b l hc hb] at h
        simp only [Option.some.injEq, Prod.mk.injEq] at h
        obtain ⟨rfl, rfl⟩ := h
        exact ⟨rfl, rfl, rfl, Nat.le_refl _, hc, fun _ => rfl,
          fun hlt => absurd hc (Nat.not_le.mpr hlt)⟩
  · cases ha : b.aliased with
    | true => rw [reserve_aliased_grow g cap b hc ha] at h; cases h
    | false =>
        cases hb : b.buf with
        | none =>
            rw [reserve_grow_none g cap b hc ha hb] at h
            simp only [Option.some.injEq, Prod.mk.injEq] at h
            obtain ⟨rfl, rfl⟩ := h
            exact ⟨rfl, ha, rfl, Nat.le_of_lt hc, Nat.le_refl _,
              fun hle => absurd hle (Nat.not_le.mpr hc), fun _ => rfl⟩
        | some l =>
            rw [reserve_grow_some g cap b l hc ha hb] at h
            simp only [Option.some.injEq, Prod.mk.injEq] at h
            obtain ⟨rfl, rfl⟩ := h
            exact ⟨rfl, ha, rfl, Nat.le_of_lt hc, Nat.le_refl _,
              fun hle => absurd hle (Nat.not_le.mpr hc), fun _ => rfl⟩

theorem reserve_wf_cells (g : Nat → Int) (cap : Nat) (b b1 : DataBuffer)
    (ev : List PoolEvent) (hwf : wf b) (h : reserve g cap b = some (b1, ev)) :
    wf b1 ∧ ∀ i, i < b.capacity → cell b1 i = cell b i := by
  rcases le_or_lt cap b.capacity with hc | hc
  · cases hb : b.buf with
    | none => rw [reserve_noop_none g cap b hc hb] at h; cases h
    | some l =>
        rw [reserve_noop g cap b l hc hb] at h
        simp only [Option.some.injEq, Prod.mk.injEq] at h
        obtain ⟨rfl, rfl⟩ := h
        exact ⟨hwf, fun i _ => rfl⟩
  · cases ha : b.aliased with
    | true => rw [reserve_aliased_grow g cap b hc ha] at h; cases h
    | false =>
        cases hb : b.buf with
        | none =>
            rw [reserve_grow_none g cap b hc ha hb] at h
            simp only [Option.some.injEq, Prod.mk.injEq] at h
            obtain ⟨rfl, rfl⟩ := h
            have hcap0 : b.capacity = 0 := (hwf.2.2).mp hb
            have hsz := hwf.1
            refine ⟨⟨?_, ?_, ?_⟩, ?_⟩
            · show b.size ≤ cap
              omega
            · show bufLen _ = cap
              simp [bufLen, freshFill]
            · constructor
              · intro hnone; cases hnone
              · intro hcap
                exact absurd (show cap = 0 from hcap) (by omega)
            · intro i hi
              exact absurd hi (by omega)
        | some l =>
            rw [reserve_grow_some g cap b l hc ha hb] at h
            simp only [Option.some.injEq, Prod.mk.injEq] at h
            obtain ⟨rfl, rfl⟩ := h
            have hlen : l.length = b.capacity := by
              have := hwf.2.1
              simpa [bufLen, hb] using this
            have hsz := hwf.1
            refine ⟨⟨?_, ?_, ?_⟩, ?_⟩
            · show b.size ≤ cap
              omega
            · show bufLen _ = cap
              simp only [bufLen, Option.getD_some, List.length_append, freshFill_length]
              omega
            · constructor
              · intro hnone; cases hnone
              · intro hcap
                exact absurd (show cap = 0 from hcap) (by omega)
            · intro i hi
              have hi2 : i < l.length := by omega
              show (l ++ freshFill g (cap - l.length)).getD i 0 = cell b i
              rw [cell_of_buf b l hb]
              simp only [List.getD_eq_getElem?_getD, List.getElem?_append_left hi2]

theorem reserve_grow_capacity (g : Nat → Int) (cap : Nat) (b : DataBuffer)
    (hc : b.capacity < cap) (ha : b.aliased = false) :
    ((reserve g cap b).map fun p => p.1.capacity) = some cap := by
  cases hb : b.buf with
  | none => rw [reserve_grow_none g cap b hc ha hb]; rfl
  | some l => rw [reserve_grow_some g cap b l hc ha hb]; rfl

theorem rawAppendAt_capacity (off : Nat) (src : List Int) (items : Nat)
    (b : DataBuffer) : (rawAppendAt off src items b).capacity = b.capacity := by
  unfold rawAppendAt
  by_cases h : 0 < items <;> simp [h]

theorem rawAppendVal_capacity (v : Int) (b : DataBuffer) :
    (rawAppendVal v b).capacity = b.capacity := rfl

theorem setAt_capacity (off : Nat) (v : Int) (b : DataBuffer) :
    (setAt off v b).capacity = b.capacity := rfl

/-- Claim C1 (counterexample): `safeSet(100, 42)` on an empty owning-mode
buffer is a growth-triggering call whose requested new logical extent is
`m = 101 > capacity = 0`, yet the capacity after the call is `101`, not
`m + (m + 1) / 2 + 1 = 153`. -/
theorem growth_policy_cex :
    (mkBuffer 0 0).aliased = false ∧ (mkBuffer 0 0).capacity < 101 ∧
      ((safeSet (fun _ => 0) 100 42 (mkBuffer 0 0)).map fun p => p.1.capacity) = some 101 ∧
      (101 : Nat) ≠ 101 + (101 + 1) / 2 + 1 := by
  exact ⟨rfl, by decide, by decide, by decide⟩

/-- Claim C1 (amended): in owning mode, the growth formula
`m + (m + 1) / 2 + 1` with `m` the requested new logical extent applies to
the growth-triggering calls of `extend` (`m = length + additional`) and
`extendAppend` (`m = offset + count`); `append(value)` instead grows the
capacity to `capacity + (capacity + 1) / 2 + 1`, and `safeSet(offset, _)`
grows it to `max(offset + 1, capacity + (capacity + 1) / 2 + 1)`. -/
theorem growth_policy_amended (b : DataBuffer) (g : Nat → Int)
    (ha : b.aliased = false) :
    (∀ n, b.capacity < b.size + n →
      ((extend g n b).map fun p => p.1.capacity) =
        some (b.size + n + (b.size + n + 1) / 2 + 1)) ∧
    (∀ off src items, b.capacity < off + items →
      ((extendAppend g off src items b).map fun p => p.1.capacity) =
        some (off + items + (off + items + 1) / 2 + 1)) ∧
    (∀ v, b.capacity ≤ b.size →
      ((appendVal g v b).map fun p => p.1.capacity) =
        some (b.capacity + (b.capacity + 1) / 2 + 1)) ∧
    (∀ off v, b.capacity ≤ off →
      ((safeSet g off v b).map fun p => p.1.capacity) =
        some (max (off + 1) (b.capacity + (b.capacity + 1) / 2 + 1))) := by
  refine ⟨?_, ?_, ?_, ?_⟩
  · intro n h
    simp only [extend]
    rw [if_pos h]
    exact reserve_grow_capacity g _ b (by omega) ha
  · intro off src items h
    have htar : b.capacity < off + items + (off + items + 1) / 2 + 1 := by omega
    simp only [extendAppend]
    rw [if_pos h]
    cases hr : reserve g (off + items + (off + items + 1) / 2 + 1) b with
    | none =>
        exfalso
        rw [reserve_eq_none_iff] at hr
        rcases hr with ⟨h1, _⟩ | ⟨_, h2⟩
        · omega
        · rw [ha] at h2; cases h2
    | some p =>
        obtain ⟨b1, ev⟩ := p
        have hcap := (reserve_some_spec g _ b b1 ev hr).2.2.2.2.2.2 htar
        show some ((rawAppendAt off src items b1).capacity) = _
        rw [rawAppendAt_capacity, hcap]
  · intro v h
    have htar : b.capacity < b.capacity + (b.capacity + 1) / 2 + 1 := by omega
    simp only [appendVal]
    rw [if_pos h]
    cases hr : reserve g (b.capacity + (b.capacity + 1) / 2 + 1) b with
    | none =>
        exfalso
        rw [reserve_eq_none_iff] at hr
        rcases hr with ⟨h1, _⟩ | ⟨_, h2⟩
        · omega
        · rw [ha] at h2; cases h2
    | some p =>
        obtain ⟨b1, ev⟩ := p
        have hcap := (reserve_some_spec g _ b b1 ev hr).2.2.2.2.2.2 htar
        show some ((rawAppendVal v b1).capacity) = _
        rw [rawAppendVal_capacity, hcap]
  · intro off v h
    have htar : b.capacity < max (off + 1) (b.capacity + (b.capacity + 1) / 2 + 1) := by
      have : b.capacity < off + 1 := by omega
      exact lt_max_of_lt_left this
    simp only [safeSet]
    rw [if_pos h]
    cases hr : reserve g (max (off + 1) (b.capacity + (b.capacity + 1) / 2 + 1)) b with
    | none =>
        exfalso
        rw [reserve_eq_none_iff] at hr
        rcases hr with ⟨h1, _⟩ | ⟨_, h2⟩
        · omega
        · rw [ha] at h2; cases h2
    | some p =>
        obtain ⟨b1, ev⟩ := p
        have hcap := (reserve_some_spec g _ b b1 ev hr).2.2.2.2.2.2 htar
        show some ((setAt off v b1).capacity) = _
        rw [setAt_capacity, hcap]

/-- Claim C1 (witness): the four amended growth formulas evaluated at
concrete growth-triggering calls. -/
theorem growth_policy_amended_witness :
    ((extend (fun _ => 0) 3 (mkBuffer 0 0)).map fun p => p.1.capacity) = some 6 ∧
    ((extendAppend (fun _ => 0) 1 [5] 1 (mkBuffer 0 0)).map fun p => p.1.capacity) = some 4 ∧
    ((appendVal (fun _ => 0) 7 (mkBuffer 0 0)).map fun p => p.1.capacity) = some 1 ∧
    ((safeSet (fun _ => 0) 50 42 (mkBuffer 0 0)).map fun p => p.1.capacity) = some 51 := by
  have h := growth_policy_amended (mkBuffer 0 0) (fun _ => 0) rfl
  exact ⟨(h.1 3 (by decide)).trans (by decide),
    (h.2.1 1 [5] 1 (by decide)).trans (by decide),
    (h.2.2.1 7 (by decide)).trans (by decide),
    (h.2.2.2 50 42 (by decide)).trans (by decide)⟩

/-- Claim C3 (counterexample): on a freshly cleared buffer (capacity 0,
null data pointer) `reserve(0)` satisfies `targetCapacity ≤ capacity` yet
fails fatally on the `VELOX_CHECK_NOT_NULL(buf_)` assertion instead of
being a no-op. -/
theorem reserve_cleared_cex :
    (clear (mkBuffer 0 3)).1.capacity = 0 ∧
      reserve (fun _ => 0) 0 (clear (mkBuffer 0 3)).1 = none := by
  exact ⟨rfl, by decide⟩

/-- Claim C3 (amended): for every buffer and every
`targetCapacity ≤ capacity`, `reserve(targetCapacity)` is a no-op — it
returns normally, calls the pool not at all and leaves the state unchanged —
provided the data pointer is non-null; when the data pointer is null (e.g.
on a freshly cleared buffer, where capacity is 0) it instead fails
fatally. -/
theorem reserve_noop_amended :
    (∀ (b : DataBuffer) (g : Nat → Int) (c : Nat) (l : List Int),
       c ≤ b.capacity → b.buf = some l → reserve g c b = some (b, [])) ∧
    (∀ (b : DataBuffer) (g : Nat → Int) (c : Nat),
       c ≤ b.capacity → b.buf = none → reserve g c b = none) := by
  exact ⟨fun b g c l hc hb => reserve_noop g c b l hc hb,
    fun b g c hc hb => reserve_noop_none g c b hc hb⟩

/-- Claim C3 (witness): the amended no-op and fatal cases at concrete
inputs. -/
theorem reserve_noop_amended_witness :
    reserve (fun _ => 0) 1 (mkBuffer 0 2) = some (mkBuffer 0 2, []) ∧
    reserve (fun _ => 0) 0 (clear (mkBuffer 0 2)).1 = none := by
  exact ⟨reserve_noop_amended.1 (mkBuffer 0 2) (fun _ => 0) 1
      (List.replicate 2 0) (by decide) (by decide),
    reserve_noop_amended.2 (clear (mkBuffer 0 2)).1 (fun _ => 0) 0
      (by decide) (by decide)⟩

/-- Claim C4 (counterexample): on an aliasing-mode (wrapped) buffer of 3
elements, `reserve(1)` has `targetCapacity ≤ capacity` and returns normally
as a no-op — it does not fail fatally. -/
theorem reserve_aliased_cex :
    (wrap [7, 8, 9]).aliased = true ∧
      reserve (fun _ => 0) 1 (wrap [7, 8, 9]) = some (wrap [7, 8, 9], []) := by
  exact ⟨rfl, by decide⟩

/-- Claim C4 (amended): on an aliasing-mode buffer, `reserve` fails fatally
exactly on growth attempts, i.e. when `targetCapacity` exceeds the (fixed)
capacity; a request with `targetCapacity ≤ capacity` returns normally as a
no-op (the aliased data pointer being non-null). -/
theorem reserve_aliased_amended :
    (∀ (b : DataBuffer) (g : Nat → Int) (c : Nat),
       b.aliased = true → b.capacity < c → reserve g c b = none) ∧
    (∀ (b : DataBuffer) (g : Nat → Int) (c : Nat) (l : List Int),
       b.aliased = true → c ≤ b.capacity → b.buf = some l →
       reserve g c b = some (b, [])) := by
  exact ⟨fun b g c ha hc => reserve_aliased_grow g c b hc ha,
    fun b g c l _ hc hb => reserve_noop g c b l hc hb⟩

/-- Claim C4 (witness): a fatal growth attempt and a succeeding no-op
request on a concrete wrapped buffer. -/
theorem reserve_aliased_amended_witness :
    reserve (fun _ => 0) 5 (wrap [7, 8, 9]) = none ∧
    reserve (fun _ => 0) 2 (wrap [7, 8, 9]) = some (wrap [7, 8, 9], []) := by
  exact ⟨reserve_aliased_amended.1 (wrap [7, 8, 9]) (fun _ => 0) 5
      (by decide) (by decide),
    reserve_aliased_amended.2 (wrap [7, 8, 9]) (fun _ => 0) 2 [7, 8, 9]
      (by decide) (by decide) (by decide)⟩

/-- Claim C8: moving a buffer `A` into `B` gives `B` exactly A's pool, data
pointer, length, capacity and aliasing state; `A` is left with null data
and zero length and capacity; and destroying `A` afterwards (the destructor
is `clear`) performs no pool interaction and changes nothing. -/
theorem move_spec (b : DataBuffer) :
    (move b).1 = b ∧
    (move b).2.size = 0 ∧ (move b).2.capacity = 0 ∧ (move b).2.buf = none ∧
    (move b).2.pool = b.pool ∧ (move b).2.aliased = b.aliased ∧
    clear (move b).2 = ((move b).2, []) := by
  refine ⟨rfl, rfl, rfl, rfl, rfl, rfl, ?_⟩
  simp [clear, move]

/-- Claim C10: `clear` leaves the state at length 0, capacity 0, null data,
and is idempotent — a second `clear` (equally the destructor, which calls
`clear`) performs no pool call and leaves the state unchanged, so the
pool's `free` runs at most once for a given allocation. -/
theorem clear_idempotent (b : DataBuffer) :
    (clear b).1.size = 0 ∧ (clear b).1.capacity = 0 ∧ (clear b).1.buf = none ∧
    clear (clear b).1 = ((clear b).1, []) := by
  refine ⟨rfl, rfl, rfl, ?_⟩
  simp [clear]

theorem setAt_size (off : Nat) (v : Int) (b : DataBuffer) :
    (setAt off v b).size = if b.size ≤ off then off + 1 else b.size := rfl

theorem wf_buf_some (b : DataBuffer) (hwf : wf b) (h : 0 < b.capacity) :
    ∃ l, b.buf = some l ∧ l.length = b.capacity := by
  cases hb : b.buf with
  | none =>
      exfalso
      have := (hwf.2.2).mp hb
      omega
  | some l =>
      refine ⟨l, rfl, ?_⟩
      have := hwf.2.1
      simpa [bufLen, hb] using this

theorem cell_setAt (b : DataBuffer) (l : List Int) (off : Nat) (v : Int)
    (hb : b.buf = some l) (hoff : off < l.length) :
    cell (setAt off v b) off = v := by
  simp [setAt, cell, hb, List.getElem?_set_self hoff]

/-- Claim C6: for an owning-mode well-formed buffer, `safeSet(offset, value)`
succeeds, writes `value` at `offset` (readable back through the checked
accessor), grows capacity to
`max(offset + 1, capacity + (capacity + 1) / 2 + 1)` exactly when
`offset ≥ capacity` (leaving it otherwise), and advances the length to
`offset + 1` exactly when `offset ≥ length` (leaving it otherwise); in
particular `safeSet(100, 42)` on an empty buffer gives size 101, `at(100)
= 42` and capacity 101. -/
theorem safeSet_spec (b : DataBuffer) (g : Nat → Int) (off : Nat) (v : Int)
    (hwf : wf b) (ha : b.aliased = false) :
    ((safeSet g off v b).map fun p => (p.1.size, p.1.capacity, atIdx p.1 off)) =
      some ((if b.size ≤ off then off + 1 else b.size),
        (if b.capacity ≤ off then max (off + 1) (b.capacity + (b.capacity + 1) / 2 + 1)
          else b.capacity),
        some v) := by
  by_cases hco : b.capacity ≤ off
  · have htar : b.capacity < max (off + 1) (b.capacity + (b.capacity + 1) / 2 + 1) := by
      have h1 : b.capacity < off + 1 := by omega
      exact lt_max_of_lt_left h1
    simp only [safeSet]
    rw [if_pos hco]
    cases hr : reserve g (max (off + 1) (b.capacity + (b.capacity + 1) / 2 + 1)) b with
    | none =>
        exfalso
        rw [reserve_eq_none_iff] at hr
        rcases hr with ⟨h1, _⟩ | ⟨_, h2⟩
        · omega
        · rw [ha] at h2; cases h2
    | some p =>
        obtain ⟨b1, ev⟩ := p
        obtain ⟨hsz, _, _, _, hcle, _, hcap⟩ := reserve_some_spec g _ b b1 ev hr
        have hcap1 : b1.capacity = max (off + 1) (b.capacity + (b.capacity + 1) / 2 + 1) :=
          hcap htar
        have hwf1 : wf b1 := (reserve_wf_cells g _ b b1 ev hwf hr).1
        obtain ⟨l1, hb1, hl1⟩ := wf_buf_some b1 hwf1 (by omega)
        have hoff1 : off < l1.length := by
          rw [hl1, hcap1]
          exact lt_of_lt_of_le (Nat.lt_succ_self off) (le_max_left _ _)
        have hsle : b1.size ≤ off := by
          rw [hsz]; exact le_trans hwf.1 hco
        show some ((setAt off v b1).size, (setAt off v b1).capacity, atIdx (setAt off v b1) off) = _
        rw [setAt_capacity, hcap1]
        have hsz2 : (setAt off v b1).size = off + 1 := by
          rw [setAt_size, if_pos hsle]
        rw [hsz2, if_pos (le_trans hwf.1 hco), if_pos hco]
        have hat : atIdx (setAt off v b1) off = some v := by
          unfold atIdx
          rw [hsz2, if_pos (Nat.lt_succ_self off), cell_setAt b1 l1 off v hb1 hoff1]
        rw [hat]
  · have hlt : off < b.capacity := Nat.lt_of_not_le hco
    obtain ⟨l, hb, hl⟩ := wf_buf_some b hwf (by omega)
    have hoff : off < l.length := by omega
    simp only [safeSet]
    rw [if_neg hco]
    show some ((setAt off v b).size, (setAt off v b).capacity, atIdx (setAt off v b) off) = _
    rw [setAt_capacity, if_neg hco, setAt_size]
    have hszlt : off < (if b.size ≤ off then off + 1 else b.size) := by
      by_cases hso : b.size ≤ off
      · rw [if_pos hso]; omega
      · rw [if_neg hso]; omega
    have hat : atIdx (setAt off v b) off = some v := by
      unfold atIdx
      rw [setAt_size, if_pos hszlt, cell_setAt b l off v hb hoff]
    rw [hat]

/-- Claim C6 (witness): `safeSet(100, 42)` on an empty owning buffer yields
size 101, `at(100) = 42` and capacity 101 (≥ 101). -/
theorem safeSet_spec_witness :
    ((safeSet (fun _ => 0) 100 42 (mkBuffer 1 0)).map
        fun p => (p.1.size, p.1.capacity, atIdx p.1 100)) =
      some (101, 101, some 42) := by
  exact (safeSet_spec (mkBuffer 1 0) (fun _ => 0) 100 42 (by decide) rfl).trans (by decide)

/-- Claim C9: on an owning-mode well-formed buffer, `extend(additional)`
succeeds, leaves the length, the content of the first `length` elements,
the pool and the mode unchanged, never shrinks capacity, grows it exactly
when `length + additional` exceeds it, and changes nothing at all
otherwise. -/
theorem extend_frame (b : DataBuffer) (g : Nat → Int) (n : Nat)
    (hwf : wf b) (ha : b.aliased = false) :
    ∃ b1 ev, extend g n b = some (b1, ev) ∧
      b1.size = b.size ∧ (∀ i, i < b.size → cell b1 i = cell b i) ∧
      b1.pool = b.pool ∧ b1.aliased = b.aliased ∧
      b.capacity ≤ b1.capacity ∧
      (b.capacity < b.size + n → b.capacity < b1.capacity) ∧
      (b.size + n ≤ b.capacity → b1 = b) := by
  by_cases hco : b.capacity < b.size + n
  · have htar : b.capacity < b.size + n + (b.size + n + 1) / 2 + 1 := by omega
    cases hr : reserve g (b.size + n + (b.size + n + 1) / 2 + 1) b with
    | none =>
        exfalso
        rw [reserve_eq_none_iff] at hr
        rcases hr with ⟨h1, _⟩ | ⟨_, h2⟩
        · omega
        · rw [ha] at h2; cases h2
    | some p =>
        obtain ⟨b1, ev⟩ := p
        obtain ⟨hsz, hal, hpool, hcle, _, _, hcap⟩ := reserve_some_spec g _ b b1 ev hr
        have hcells := (reserve_wf_cells g _ b b1 ev hwf hr).2
        refine ⟨b1, ev, ?_, hsz, ?_, hpool, hal, hcle, ?_, ?_⟩
        · simp only [extend]
          rw [if_pos hco]
          exact hr
        · intro i hi
          exact hcells i (lt_of_lt_of_le hi hwf.1)
        · intro _
          rw [hcap htar]
          omega
        · intro hle
          exact absurd hco (Nat.not_lt.mpr hle)
  · refine ⟨b, [], ?_, rfl, fun i _ => rfl, rfl, rfl, Nat.le_refl _, ?_, fun _ => rfl⟩
    · simp only [extend]
      rw [if_neg hco]
    · intro hlt
      exact absurd hlt hco

/-- Claim C9 (witness): `extend(4)` on a one-element owning buffer keeps
the length at 1. -/
theorem extend_frame_witness :
    ((extend (fun _ => 0) 4 (mkBuffer 2 1)).map fun p => p.1.size) = some 1 := by
  obtain ⟨b1, ev, h, hsize, _⟩ := extend_frame (mkBuffer 2 1) (fun _ => 0) 4 (by decide) rfl
  rw [h]
  show some b1.size = some 1
  rw [hsize]
  decide

theorem getD_drop_take (ls : List Int) (srcOff items i : Nat) (hi : i < items) :
    ((ls.drop srcOff).take items).getD i 0 = ls.getD (srcOff + i) 0 := by
  simp only [List.getD_eq_getElem?_getD, List.getElem?_take_of_lt hi, List.getElem?_drop]

/-- Claim C5 (counterexample): `resize(0)` on a freshly cleared owning-mode
buffer fails fatally (on `reserve`'s null-pointer assertion) instead of
setting the length to 0. -/
theorem resize_cleared_cex :
    (clear (mkBuffer 0 3)).1.aliased = false ∧
      resize (fun _ => 0) 0 (clear (mkBuffer 0 3)).1 = none := by
  exact ⟨rfl, by decide⟩

/-- Claim C5 (amended): for every owning-mode well-formed buffer,
`resize(newLength)` — except in the single fatal case `newLength = 0` on an
unallocated (null-data) buffer — succeeds with capacity ≥ newLength, sets
length = newLength, zero-fills exactly the indices `[length, newLength)`
when growing, keeps the content below `min(newLength, length)` unchanged,
and when `newLength ≤ length` leaves capacity and storage untouched. -/
theorem resize_spec_amended (b : DataBuffer) (g : Nat → Int) (n : Nat)
    (hwf : wf b) (ha : b.aliased = false) (hok : b.buf ≠ none ∨ 0 < n) :
    ∃ b1 ev, resize g n b = some (b1, ev) ∧
      n ≤ b1.capacity ∧ b1.size = n ∧
      (∀ i, i < n → i < b.size → cell b1 i = cell b i) ∧
      (∀ i, b.size ≤ i → i < n → cell b1 i = 0) ∧
      (n ≤ b.size → b1.capacity = b.capacity ∧ b1.buf = b.buf) := by
  cases hr : reserve g n b with
  | none =>
      exfalso
      rw [reserve_eq_none_iff] at hr
      rcases hr with ⟨h1, h2⟩ | ⟨_, h2⟩
      · have hc0 : b.capacity = 0 := (hwf.2.2).mp h2
        rcases hok with hne | hpos
        · exact hne h2
        · omega
      · rw [ha] at h2; cases h2
  | some p =>
      obtain ⟨br, ev⟩ := p
      obtain ⟨hsz, hal, hpool, hcle, hnle, hid, hcap⟩ := reserve_some_spec g n b br ev hr
      obtain ⟨hwfr, hcells⟩ := reserve_wf_cells g n b br ev hwf hr
      by_cases hgrow : br.size < n
      · obtain ⟨lr, hbr, hlr⟩ := wf_buf_some br hwfr (by omega)
        set l2 := setRange lr br.size (List.replicate (n - br.size) 0) with hl2
        refine ⟨{ br with buf := some l2, size := n }, ev, ?_, ?_, rfl, ?_, ?_, ?_⟩
        · simp [resize, hr, hgrow, hbr, hl2]
        · exact hnle
        · intro i hin hib
          have hio : i < br.size := by omega
          have h1 : cell { br with buf := some l2, size := n } i = l2.getD i 0 := by
            simp [cell]
          rw [h1, hl2, setRange_getD_left lr _ br.size i hio (by rw [hlr]; exact hwfr.1),
            ← cell_of_buf br lr hbr i]
          exact hcells i (lt_of_lt_of_le hib hwf.1)
        · intro i hbi hin
          have hii : i - br.size < (List.replicate (n - br.size) (0 : Int)).length := by
            rw [List.length_replicate]
            omega
          have hmid := setRange_getD_mid lr (List.replicate (n - br.size) 0) br.size
            (i - br.size) hii (by rw [hlr]; exact hwfr.1)
          rw [show br.size + (i - br.size) = i from by omega] at hmid
          have h1 : cell { br with buf := some l2, size := n } i = l2.getD i 0 := by
            simp [cell]
          rw [h1, hl2, hmid]
          simp [List.getD_eq_getElem?_getD, List.getElem?_replicate_of_lt hii]
        · intro hle
          exfalso
          omega
      · have hnb : n ≤ b.size := by omega
        have hbeq : br = b := hid (le_trans hnb hwf.1)
        subst hbeq
        refine ⟨{ br with size := n }, ev, ?_, le_trans hnb hwf.1, rfl, ?_, ?_, ?_⟩
        · simp [resize, hr, hgrow]
        · intro i _ _
          rfl
        · intro i hle hlt
          exact absurd hlt (by omega)
        · intro _
          exact ⟨rfl, rfl⟩

/-- Claim C5 (witness): `resize(10)` on an empty owning buffer succeeds
with length 10 and the newly exposed element at index 9 reading 0. -/
theorem resize_spec_amended_witness :
    ((resize (fun _ => 0) 10 (mkBuffer 3 0)).map fun p => (p.1.size, atIdx p.1 9)) =
      some (10, some 0) := by
  obtain ⟨b1, ev, h, hcap, hsize, hpres, hzero, _⟩ :=
    resize_spec_amended (mkBuffer 3 0) (fun _ => 0) 10 (by decide) rfl (Or.inr (by decide))
  rw [h]
  show some (b1.size, atIdx b1 9) = some (10, some 0)
  have h9 : cell b1 9 = 0 := hzero 9 (by decide) (by decide)
  unfold atIdx
  rw [hsize, if_pos (show (9 : Nat) < 10 from by decide), h9]

/-- Claim C7 (counterexample): `append(0, other, 0, 4)` into an
aliasing-mode destination of capacity 3 fails fatally although the source
holds `0 + 4` valid elements — so the claimed "fails iff source underflow"
equivalence is false. -/
theorem append_check_iff_cex :
    ¬ (mkBuffer 0 5).size < 0 + 4 ∧
      appendBuf (fun _ => 0) 0 (mkBuffer 0 5) 0 4 (wrap [1, 2, 3]) = none := by
  exact ⟨by decide, by decide⟩

/-- Claim C7 (amended): `append(offset, otherBuffer, otherOffset, count)`
fails fatally iff the source underflows (`otherBuffer.length < otherOffset
+ count`) or the inner `reserve(offset + count)` fails — that is, the
destination is aliasing-mode with `offset + count` above its capacity, or
`offset + count ≤ capacity` while the data pointer is null.  On success it
leaves capacity ≥ offset + count, copies the `count` source elements into
`[offset, offset + count)` and sets length = offset + count. -/
theorem append_buf_amended (b src : DataBuffer) (g : Nat → Int)
    (off srcOff items : Nat) (hwf : wf b) (hwfs : wf src) :
    (appendBuf g off src srcOff items b = none ↔
      (src.size < srcOff + items ∨
        (b.capacity < off + items ∧ b.aliased = true) ∨
        (off + items ≤ b.capacity ∧ b.buf = none))) ∧
    (∀ b1 ev, appendBuf g off src srcOff items b = some (b1, ev) →
      off + items ≤ b1.capacity ∧ b1.size = off + items ∧
      (∀ i, i < items → cell b1 (off + i) = cell src (srcOff + i))) := by
  constructor
  · by_cases hund : src.size < srcOff + items
    · simp only [appendBuf]
      rw [if_pos hund]
      exact iff_of_true rfl (Or.inl hund)
    · simp only [appendBuf]
      rw [if_neg hund]
      simp only [appendPtr]
      cases hr : reserve g (off + items) b with
      | none =>
          rw [reserve_eq_none_iff] at hr
          refine iff_of_true rfl ?_
          rcases hr with ⟨h1, h2⟩ | ⟨h1, h2⟩
          · exact Or.inr (Or.inr ⟨h1, h2⟩)
          · exact Or.inr (Or.inl ⟨h1, h2⟩)
      | some p =>
          obtain ⟨br, ev⟩ := p
          show some (rawAppendAt off ((src.buf.getD []).drop srcOff) items br, ev) = none ↔ _
          refine iff_of_false (Option.some_ne_none _) ?_
          rintro (h1 | ⟨h1, h2⟩ | ⟨h1, h2⟩)
          · exact absurd h1 hund
          · rw [reserve_aliased_grow g _ b h1 h2] at hr
            cases hr
          · rw [reserve_noop_none g _ b h1 h2] at hr
            cases hr
  · intro b1 ev h
    by_cases hund : src.size < srcOff + items
    · simp only [appendBuf] at h
      rw [if_pos hund] at h
      cases h
    · simp only [appendBuf] at h
      rw [if_neg hund] at h
      simp only [appendPtr] at h
      cases hr : reserve g (off + items) b with
      | none =>
          rw [hr] at h
          cases h
      | some p =>
          obtain ⟨br, ev2⟩ := p
          rw [hr] at h
          simp only [Option.some.injEq, Prod.mk.injEq] at h
          obtain ⟨rfl, rfl⟩ := h
          obtain ⟨hsz, _, _, _, hnle, _, _⟩ := reserve_some_spec g _ b br ev2 hr
          obtain ⟨hwfr, _⟩ := reserve_wf_cells g _ b br ev2 hwf hr
          refine ⟨?_, rfl, ?_⟩
          · rw [rawAppendAt_capacity]
            exact hnle
          · intro i hi
            have hit : 0 < items := by omega
            have hsle : srcOff + items ≤ src.size := Nat.not_lt.mp hund
            have hs1 := hwfs.1
            obtain ⟨ls, hls, hlsl⟩ := wf_buf_some src hwfs (by omega)
            obtain ⟨lr, hbr, hlr⟩ := wf_buf_some br hwfr (by omega)
            have hxs : (src.buf.getD []).drop srcOff = ls.drop srcOff := by
              rw [hls]
              rfl
            have htake : (((src.buf.getD []).drop srcOff).take items).length = items := by
              rw [hxs, List.length_take, List.length_drop, hlsl]
              omega
            have hb1 : (rawAppendAt off ((src.buf.getD []).drop srcOff) items br).buf
                = some (setRange lr off (((src.buf.getD []).drop srcOff).take items)) := by
              simp [rawAppendAt, hit, hbr]
            have hc1 : cell (rawAppendAt off ((src.buf.getD []).drop srcOff) items br) (off + i)
                = (setRange lr off (((src.buf.getD []).drop srcOff).take items)).getD (off + i) 0 := by
              simp [cell, hb1]
            rw [hc1, setRange_getD_mid lr _ off i (by rw [htake]; exact hi) (by rw [hlr]; omega),
              hxs, getD_drop_take ls srcOff items i hi, cell_of_buf src ls hls]

/-- Claim C7 (witness): appending 2 elements of a wrapped 3-element source
at offset 2 into an owning buffer of length 2 succeeds with length 4 and
the copied cells reading back the source values. -/
theorem append_buf_amended_witness :
    ((appendBuf (fun _ => 1) 2 (wrap [7, 8, 9]) 1 2 (mkBuffer 0 2)).map
        fun p => (p.1.size, cell p.1 2, cell p.1 3)) = some (4, 8, 9) := by
  obtain ⟨hiff, hsome⟩ := append_buf_amended (mkBuffer 0 2) (wrap [7, 8, 9])
    (fun _ => 1) 2 1 2 (by decide) (by decide)
  cases hres : appendBuf (fun _ => 1) 2 (wrap [7, 8, 9]) 1 2 (mkBuffer 0 2) with
  | none =>
      rw [hiff] at hres
      exact absurd hres (by decide)
  | some p =>
      obtain ⟨b1, ev⟩ := p
      obtain ⟨hcap, hsize, hcells⟩ := hsome b1 ev hres
      show some (b1.size, cell b1 2, cell b1 3) = some (4, 8, 9)
      have hc2 : cell b1 2 = cell (wrap [7, 8, 9]) 1 := by
        have h := hcells 0 (by decide)
        simpa using h
      have hc3 : cell b1 3 = cell (wrap [7, 8, 9]) 2 := by
        have h := hcells 1 (by decide)
        simpa using h
      rw [hsize, hc2, hc3]
      decide

theorem wf_mk (b : DataBuffer) (l : List Int) (hb : b.buf = some l)
    (hlen : l.length = b.capacity) (hsz : b.size ≤ b.capacity)
    (hpos : 0 < b.capacity) : wf b := by
  refine ⟨hsz, ?_, ?_⟩
  · simp [bufLen, hb, hlen]
  · rw [hb]
    constructor
    · intro h; cases h
    · intro h; omega

theorem wf_mkBuffer (p n : Nat) : wf (mkBuffer p n) := by
  by_cases h : n = 0 <;> simp [wf, mkBuffer, bufLen, h]

theorem wf_wrap (l : List Int) : wf (wrap l) := by
  by_cases h : l.length = 0 <;> simp [wf, wrap, bufLen, h]

theorem clear_wf (b : DataBuffer) : wf (clear b).1 := by
  simp [wf, clear, bufLen]

theorem rawAppendAt_wf (off : Nat) (xs : List Int) (items : Nat) (b : DataBuffer)
    (hwf : wf b) (hle : off + items ≤ b.capacity) : wf (rawAppendAt off xs items b) := by
  by_cases hit : 0 < items
  · obtain ⟨l, hb, hl⟩ := wf_buf_some b hwf (by omega)
    have hlen : off + (xs.take items).length ≤ l.length := by
      have h1 : (xs.take items).length ≤ items := List.length_take_le items xs
      omega
    refine wf_mk _ (setRange l off (xs.take items)) ?_ ?_ ?_ ?_
    · simp [rawAppendAt, hit, hb]
    · rw [setRange_length _ _ _ hlen, hl, rawAppendAt_capacity]
    · rw [rawAppendAt_capacity]
      show off + items ≤ b.capacity
      exact hle
    · rw [rawAppendAt_capacity]
      omega
  · have h0 : items = 0 := by omega
    subst h0
    refine ⟨?_, hwf.2.1, hwf.2.2⟩
    show off + 0 ≤ b.capacity
    omega

theorem rawAppendVal_wf (v : Int) (b : DataBuffer) (hwf : wf b)
    (hlt : b.size < b.capacity) : wf (rawAppendVal v b) := by
  obtain ⟨l, hb, hl⟩ := wf_buf_some b hwf (by omega)
  refine wf_mk _ (l.set b.size v) ?_ ?_ ?_ ?_
  · simp [rawAppendVal, hb]
  · rw [List.length_set, hl]
    rfl
  · show b.size + 1 ≤ b.capacity
    omega
  · show 0 < b.capacity
    omega

theorem setAt_wf (off : Nat) (v : Int) (b : DataBuffer) (hwf : wf b)
    (hlt : off < b.capacity) : wf (setAt off v b) := by
  obtain ⟨l, hb, hl⟩ := wf_buf_some b hwf (by omega)
  refine wf_mk _ (l.set off v) ?_ ?_ ?_ ?_
  · simp [setAt, hb]
  · rw [List.length_set, hl]
    rfl
  · show (if b.size ≤ off then off + 1 else b.size) ≤ b.capacity
    by_cases hso : b.size ≤ off
    · rw [if_pos hso]; omega
    · rw [if_neg hso]; exact hwf.1
  · show 0 < b.capacity
    omega

theorem extend_wf (g : Nat → Int) (n : Nat) (b b1 : DataBuffer) (ev : List PoolEvent)
    (hwf : wf b) (h : extend g n b = some (b1, ev)) : wf b1 := by
  simp only [extend] at h
  by_cases hc : b.capacity < b.size + n
  · rw [if_pos hc] at h
    exact (reserve_wf_cells g _ b b1 ev hwf h).1
  · rw [if_neg hc] at h
    simp only [Option.some.injEq, Prod.mk.injEq] at h
    obtain ⟨rfl, rfl⟩ := h
    exact hwf

theorem resize_wf (g : Nat → Int) (n : Nat) (b b1 : DataBuffer) (ev : List PoolEvent)
    (hwf : wf b) (h : resize g n b = some (b1, ev)) : wf b1 := by
  cases hr : reserve g n b with
  | none =>
      rw [show resize g n b = none from by simp [resize, hr]] at h
      cases h
  | some p =>
      obtain ⟨br, ev2⟩ := p
      obtain ⟨hsz, _, _, _, hnle, _, _⟩ := reserve_some_spec g n b br ev2 hr
      have hwfr := (reserve_wf_cells g n b br ev2 hwf hr).1
      by_cases hgrow : br.size < n
      · obtain ⟨lr, hbr, hlr⟩ := wf_buf_some br hwfr (by omega)
        have h2 : resize g n b = some ({ br with buf := some (setRange lr br.size (List.replicate (n - br.size) 0)), size := n }, ev2) := by
          simp [resize, hr, hgrow, hbr]
        rw [h2] at h
        simp only [Option.some.injEq, Prod.mk.injEq] at h
        obtain ⟨rfl, rfl⟩ := h
        refine wf_mk _ (setRange lr br.size (List.replicate (n - br.size) 0)) rfl ?_ ?_ ?_
        · have hrange : br.size + (List.replicate (n - br.size) (0 : Int)).length ≤ lr.length := by
            rw [List.length_replicate, hlr]
            omega
          rw [setRange_length _ _ _ hrange, hlr]
        · show n ≤ br.capacity
          exact hnle
        · show 0 < br.capacity
          omega
      · have h2 : resize g n b = some ({ br with size := n }, ev2) := by
          simp [resize, hr, hgrow]
        rw [h2] at h
        simp only [Option.some.injEq, Prod.mk.injEq] at h
        obtain ⟨rfl, rfl⟩ := h
        refine ⟨?_, hwfr.2.1, hwfr.2.2⟩
        show n ≤ br.capacity
        exact hnle

theorem appendPtr_wf (g : Nat → Int) (off : Nat) (src : List Int) (items : Nat)
    (b b1 : DataBuffer) (ev : List PoolEvent) (hwf : wf b)
    (h : appendPtr g off src items b = some (b1, ev)) : wf b1 := by
  simp only [appendPtr] at h
  cases hr : reserve g (off + items) b with
  | none => rw [hr] at h; cases h
  | some p =>
      obtain ⟨br, ev2⟩ := p
      rw [hr] at h
      simp only [Option.some.injEq, Prod.mk.injEq] at h
      obtain ⟨rfl, rfl⟩ := h
      exact rawAppendAt_wf off src items br (reserve_wf_cells g _ b br ev2 hwf hr).1
        (reserve_some_spec g _ b br ev2 hr).2.2.2.2.1

theorem appendBuf_wf (g : Nat → Int) (off : Nat) (src : DataBuffer)
    (srcOff items : Nat) (b b1 : DataBuffer) (ev : List PoolEvent) (hwf : wf b)
    (h : appendBuf g off src srcOff items b = some (b1, ev)) : wf b1 := by
  simp only [appendBuf] at h
  by_cases hund : src.size < srcOff + items
  · rw [if_pos hund] at h
    cases h
  · rw [if_neg hund] at h
    exact appendPtr_wf g off _ items b b1 ev hwf h

theorem extendAppend_wf (g : Nat → Int) (off : Nat) (src : List Int) (items : Nat)
    (b b1 : DataBuffer) (ev : List PoolEvent) (hwf : wf b)
    (h : extendAppend g off src items b = some (b1, ev)) : wf b1 := by
  simp only [extendAppend] at h
  by_cases hc : b.capacity < off + items
  · rw [if_pos hc] at h
    cases hr : reserve g (off + items + (off + items + 1) / 2 + 1) b with
    | none => rw [hr] at h; cases h
    | some p =>
        obtain ⟨br, ev2⟩ := p
        rw [hr] at h
        simp only [Option.some.injEq, Prod.mk.injEq] at h
        obtain ⟨rfl, rfl⟩ := h
        have hnle := (reserve_some_spec g _ b br ev2 hr).2.2.2.2.1
        exact rawAppendAt_wf off src items br (reserve_wf_cells g _ b br ev2 hwf hr).1
          (by omega)
  · rw [if_neg hc] at h
    simp only [Option.some.injEq, Prod.mk.injEq] at h
    obtain ⟨rfl, rfl⟩ := h
    exact rawAppendAt_wf off src items b hwf (by omega)

theorem appendVal_wf (g : Nat → Int) (v : Int) (b b1 : DataBuffer)
    (ev : List PoolEvent) (hwf : wf b) (h : appendVal g v b = some (b1, ev)) :
    wf b1 := by
  simp only [appendVal] at h
  by_cases hc : b.capacity ≤ b.size
  · rw [if_pos hc] at h
    cases hr : reserve g (b.capacity + (b.capacity + 1) / 2 + 1) b with
    | none => rw [hr] at h; cases h
    | some p =>
        obtain ⟨br, ev2⟩ := p
        rw [hr] at h
        simp only [Option.some.injEq, Prod.mk.injEq] at h
        obtain ⟨rfl, rfl⟩ := h
        obtain ⟨hsz, _, _, _, hnle, _, hcap⟩ := reserve_some_spec g _ b br ev2 hr
        have hs1 := hwf.1
        exact rawAppendVal_wf v br (reserve_wf_cells g _ b br ev2 hwf hr).1 (by omega)
  · rw [if_neg hc] at h
    simp only [Option.some.injEq, Prod.mk.injEq] at h
    obtain ⟨rfl, rfl⟩ := h
    exact rawAppendVal_wf v b hwf (by omega)

theorem safeSet_wf (g : Nat → Int) (off : Nat) (v : Int) (b b1 : DataBuffer)
    (ev : List PoolEvent) (hwf : wf b) (h : safeSet g off v b = some (b1, ev)) :
    wf b1 := by
  simp only [safeSet] at h
  by_cases hc : b.capacity ≤ off
  · rw [if_pos hc] at h
    cases hr : reserve g (max (off + 1) (b.capacity + (b.capacity + 1) / 2 + 1)) b with
    | none => rw [hr] at h; cases h
    | some p =>
        obtain ⟨br, ev2⟩ := p
        rw [hr] at h
        simp only [Option.some.injEq, Prod.mk.injEq] at h
        obtain ⟨rfl, rfl⟩ := h
        have hnle := (reserve_some_spec g _ b br ev2 hr).2.2.2.2.1
        have hle1 : off + 1 ≤ br.capacity := le_trans (le_max_left _ _) hnle
        exact setAt_wf off v br (reserve_wf_cells g _ b br ev2 hwf hr).1 (by omega)
  · rw [if_neg hc] at h
    simp only [Option.some.injEq, Prod.mk.injEq] at h
    obtain ⟨rfl, rfl⟩ := h
    exact setAt_wf off v b hwf (by omega)

theorem move_dst_wf (b : DataBuffer) (hwf : wf b) : wf (move b).1 := hwf

theorem move_src_wf (b : DataBuffer) : wf (move b).2 := by
  simp [wf, move, bufLen]

/-- One public mutating operation from the claim's operation list, carrying
its arguments and (where the pool may deliver fresh storage) the
fresh-content oracle. -/
inductive Op where
  | reserveOp (g : Nat → Int) (c : Nat)
  | resizeOp (g : Nat → Int) (n : Nat)
  | extendOp (g : Nat → Int) (n : Nat)
  | appendValOp (g : Nat → Int) (v : Int)
  | appendPtrOp (g : Nat → Int) (off : Nat) (src : List Int) (items : Nat)
  | appendBufOp (g : Nat → Int) (off : Nat) (src : DataBuffer) (srcOff items : Nat)
  | extendAppendOp (g : Nat → Int) (off : Nat) (src : List Int) (items : Nat)
  | safeSetOp (g : Nat → Int) (off : Nat) (v : Int)
  | clearOp
  | moveSrcOp
  | moveDstOp

/-- Apply one public operation to a buffer state: `none` is a fatal stop,
`some` the successor state (pool events dropped). -/
def step (op : Op) (b : DataBuffer) : Option DataBuffer :=
  match op with
  | Op.reserveOp g c => (reserve g c b).map Prod.fst
  | Op.resizeOp g n => (resize g n b).map Prod.fst
  | Op.extendOp g n => (extend g n b).map Prod.fst
  | Op.appendValOp g v => (appendVal g v b).map Prod.fst
  | Op.appendPtrOp g off src items => (appendPtr g off src items b).map Prod.fst
  | Op.appendBufOp g off src srcOff items => (appendBuf g off src srcOff items b).map Prod.fst
  | Op.extendAppendOp g off src items => (extendAppend g off src items b).map Prod.fst
  | Op.safeSetOp g off v => (safeSet g off v b).map Prod.fst
  | Op.clearOp => some (clear b).1
  | Op.moveSrcOp => some (move b).2
  | Op.moveDstOp => some (move b).1

/-- Run a sequence of public operations, stopping at the first fatal one. -/
def run (ops : List Op) (b : DataBuffer) : Option DataBuffer :=
  match ops with
  | [] => some b
  | op :: rest =>
      match step op b with
      | none => none
      | some b2 => run rest b2

theorem wf_step (op : Op) (b b1 : DataBuffer) (hwf : wf b)
    (h : step op b = some b1) : wf b1 := by
  cases op with
  | reserveOp g c =>
      simp only [step, Option.map_eq_some'] at h
      obtain ⟨⟨br, ev⟩, hr, rfl⟩ := h
      exact (reserve_wf_cells g c b br ev hwf hr).1
  | resizeOp g n =>
      simp only [step, Option.map_eq_some'] at h
      obtain ⟨⟨br, ev⟩, hr, rfl⟩ := h
      exact resize_wf g n b br ev hwf hr
  | extendOp g n =>
      simp only [step, Option.map_eq_some'] at h
      obtain ⟨⟨br, ev⟩, hr, rfl⟩ := h
      exact extend_wf g n b br ev hwf hr
  | appendValOp g v =>
      simp only [step, Option.map_eq_some'] at h
      obtain ⟨⟨br, ev⟩, hr, rfl⟩ := h
      exact appendVal_wf g v b br ev hwf hr
  | appendPtrOp g off src items =>
      simp only [step, Option.map_eq_some'] at h
      obtain ⟨⟨br, ev⟩, hr, rfl⟩ := h
      exact appendPtr_wf g off src items b br ev hwf hr
  | appendBufOp g off src srcOff items =>
      simp only [step, Option.map_eq_some'] at h
      obtain ⟨⟨br, ev⟩, hr, rfl⟩ := h
      exact appendBuf_wf g off src srcOff items b br ev hwf hr
  | extendAppendOp g off src items =>
      simp only [step, Option.map_eq_some'] at h
      obtain ⟨⟨br, ev⟩, hr, rfl⟩ := h
      exact extendAppend_wf g off src items b br ev hwf hr
  | safeSetOp g off v =>
      simp only [step, Option.map_eq_some'] at h
      obtain ⟨⟨br, ev⟩, hr, rfl⟩ := h
      exact safeSet_wf g off v b br ev hwf hr
  | clearOp =>
      simp only [step, Option.some.injEq] at h
      rw [← h]
      exact clear_wf b
  | moveSrcOp =>
      simp only [step, Option.some.injEq] at h
      rw [← h]
      exact move_src_wf b
  | moveDstOp =>
      simp only [step, Option.some.injEq] at h
      rw [← h]
      exact move_dst_wf b hwf

theorem run_wf (ops : List Op) : ∀ b0, wf b0 → ∀ b1, run ops b0 = some b1 → wf b1 := by
  induction ops with
  | nil =>
      intro b0 hwf b1 h
      simp only [run, Option.some.injEq] at h
      rw [← h]
      exact hwf
  | cons op rest ih =>
      intro b0 hwf b1 h
      simp only [run] at h
      cases hs : step op b0 with
      | none => rw [hs] at h; cases h
      | some b2 =>
          rw [hs] at h
          exact ih b2 (wf_step op b0 b2 hwf hs) b1 h

/-- Claim C2: both construction modes establish the representation
invariant (`0 ≤ length ≤ capacity` and `data == null ⇔ capacity == 0`),
and every sequence of public operations (reserve, resize, extend, the
append family, safeSet, clear and both sides of a move) preserves it at
every successfully completed call. -/
theorem invariant_preservation :
    (∀ p n, wf (mkBuffer p n)) ∧ (∀ l, wf (wrap l)) ∧
    (∀ ops b0, wf b0 → ∀ b1, run ops b0 = some b1 → wf b1) := by
  exact ⟨wf_mkBuffer, wf_wrap, fun ops b0 hwf b1 h => run_wf ops b0 hwf b1 h⟩

/-- Claim C2 (witness): a concrete operation sequence (sparse `safeSet`,
an append with growth, then `clear`) run from a fresh 3-element buffer ends
in a well-formed state. -/
theorem invariant_preservation_witness :
    wf ((run [Op.safeSetOp (fun _ => 0) 2 7, Op.appendValOp (fun _ => 0) 5,
        Op.clearOp] (mkBuffer 0 3)).getD (mkBuffer 0 1)) := by
  have h : run [Op.safeSetOp (fun _ => 0) 2 7, Op.appendValOp (fun _ => 0) 5,
      Op.clearOp] (mkBuffer 0 3) =
      some { pool := some 0, aliased := false, buf := none, size := 0, capacity := 0 } := by
    decide
  rw [h]
  exact invariant_preservation.2.2 _ (mkBuffer 0 3) (by decide) _ h

end DataBuffer
